import Mathlib

/-!
Verification of the mc4p wire/field codec, buffered stream and endpoint
layers against their natural-language specification.

Shallow embedding conventions:
* Python byte strings are `List Nat` (each element < 256 where produced).
* Python unicode strings are `List Nat` of code points.
* Machine integers are `Nat`/`Int`; masking with an all-ones constant is
  written `% 2 ^ w` where that is the arithmetic meaning.
* Fallible code (struct errors, buffer underflow, UnicodeDecodeError,
  PartialPacketException) is `Option`/`Except`.
-/

namespace Mc4p

/-! ### VarInt codec (`mc4p/parsing.py`, class `VarInt`)

`VarInt.emit` joins, for `i` in `range(((value.bit_length() - 1) // 7 + 1) or 1)`,
the byte `(value >> i*7) & 0x7f | (value >> (i+1)*7 > 0) << 7`.
Python's `bit_length` is `Nat.size`; for `value = 0` the Python expression
`((0 - 1) // 7 + 1) or 1` is `1`, and so is the truncated-subtraction
`(Nat.size 0 - 1) / 7 + 1`, so one formula covers both cases. -/

def VarInt_numBytes (v : Nat) : Nat := (Nat.size v - 1) / 7 + 1

def VarInt_emit (v : Nat) : List Nat :=
  (List.range (VarInt_numBytes v)).map fun i =>
    ((v >>> (i * 7)) &&& 0x7f) ||| (if 0 < v >>> ((i + 1) * 7) then 0x80 else 0)

/-- `VarInt.parse`: up to five bytes, seven payload bits each, little-endian;
a missing byte is a buffer underflow (`none`), as is a varint running past
five bytes (the source's `IOError`). Returns the value and the unread rest. -/
def VarInt_parseAux : Nat → List Nat → Nat → Nat → Option (Nat × List Nat)
  | 0, _, _, _ => none
  | _ + 1, [], _, _ => none
  | fuel + 1, b :: rest, i, acc =>
    let acc := acc ||| ((b &&& 0x7f) <<< (7 * i))
    if b &&& 0x80 = 0 then some (acc, rest)
    else VarInt_parseAux fuel rest (i + 1) acc

def VarInt_parse (data : List Nat) : Option (Nat × List Nat) :=
  VarInt_parseAux 5 data 0 0

/-- Recursive characterisation of the emitted byte list. -/
def VarInt_emitRec (v : Nat) : List Nat :=
  if v < 128 then [v]
  else ((v &&& 0x7f) ||| 0x80) :: VarInt_emitRec (v >>> 7)
  termination_by v
  decreasing_by
    simp only [Nat.shiftRight_eq_div_pow]
    exact Nat.div_lt_self (by omega) (by norm_num)

lemma or_shiftLeft_eq_add : ∀ (k a b : Nat), a < 2 ^ k → a ||| (b <<< k) = a + b * 2 ^ k := by
  intro k
  induction k with
  | zero =>
    intro a b ha
    have ha0 : a = 0 := by omega
    subst ha0
    simp [Nat.shiftLeft_eq]
  | succ k ih =>
    intro a b ha
    have hdecomp : Nat.bit (Nat.bodd a) (Nat.div2 a) = a := Nat.bit_decomp a
    have hshift : b <<< (k + 1) = Nat.bit false (b <<< k) := by
      rw [Nat.bit_val, Nat.shiftLeft_eq, Nat.shiftLeft_eq, Nat.pow_succ]
      simp
      ring
    rw [← hdecomp, hshift, Nat.lor_bit]
    have hpow : (2 : Nat) ^ (k + 1) = 2 * 2 ^ k := by rw [Nat.pow_succ]; ring
    have hdiv : Nat.div2 a < 2 ^ k := by
      rw [Nat.div2_val]
      omega
    rw [ih (Nat.div2 a) b hdiv, Nat.bit_val, Nat.bit_val]
    have hsum : (Nat.bodd a).toNat + 2 * Nat.div2 a = a := Nat.bodd_add_div2 a
    have hb : b * 2 ^ (k + 1) = 2 * (b * 2 ^ k) := by rw [hpow]; ring
    rw [hb, Bool.or_false]
    cases Nat.bodd a <;> simp at hsum ⊢ <;> omega

lemma size_shiftRight_seven {v : Nat} (h : 128 ≤ v) :
    Nat.size (v >>> 7) = Nat.size v - 7 := by
  have hsz : 8 ≤ Nat.size v := by
    rw [show (8 : Nat) = 7 + 1 by rfl, Nat.succ_le_iff, Nat.lt_size]
    exact h
  apply Nat.le_antisymm
  · rw [Nat.size_le, Nat.shiftRight_eq_div_pow,
      Nat.div_lt_iff_lt_mul (by norm_num : 0 < 2 ^ 7), ← Nat.pow_add]
    have : Nat.size v ≤ Nat.size v - 7 + 7 := by omega
    exact lt_of_lt_of_le (Nat.lt_size_self v) (Nat.pow_le_pow_right (by norm_num) this)
  · have h3 : v >>> 7 < 2 ^ Nat.size (v >>> 7) := Nat.lt_size_self _
    have h3d : v / 2 ^ 7 < 2 ^ Nat.size (v >>> 7) := by
      rw [← Nat.shiftRight_eq_div_pow]
      exact h3
    have h3m : v < 2 ^ Nat.size (v >>> 7) * 2 ^ 7 :=
      (Nat.div_lt_iff_lt_mul (by norm_num : 0 < 2 ^ 7)).mp h3d
    rw [← Nat.pow_add] at h3m
    have h4 : Nat.size v ≤ Nat.size (v >>> 7) + 7 := Nat.size_le.mpr h3m
    omega

lemma VarInt_numBytes_shiftRight {v : Nat} (h : 128 ≤ v) :
    VarInt_numBytes v = VarInt_numBytes (v >>> 7) + 1 := by
  unfold VarInt_numBytes
  rw [size_shiftRight_seven h]
  have hsz : 8 ≤ Nat.size v := by
    rw [show (8 : Nat) = 7 + 1 by rfl, Nat.succ_le_iff, Nat.lt_size]
    exact h
  have : Nat.size v - 7 - 1 = Nat.size v - 8 := by omega
  rw [this]
  have : Nat.size v - 1 = (Nat.size v - 8) + 7 := by omega
  rw [this, Nat.add_div_right _ (by norm_num)]

lemma VarInt_emit_eq_emitRec (v : Nat) : VarInt_emit v = VarInt_emitRec v := by
  induction v using Nat.strong_induction_on with
  | _ v ih =>
    rcases lt_or_le v 128 with h | h
    · rw [VarInt_emitRec, if_pos h]
      have hnb : VarInt_numBytes v = 1 := by
        unfold VarInt_numBytes
        have : Nat.size v ≤ 7 := Nat.size_le.mpr (by omega)
        omega
      unfold VarInt_emit
      rw [hnb]
      have h7 : v >>> ((0 + 1) * 7) = 0 := by
        simp only [Nat.shiftRight_eq_div_pow]
        norm_num
        omega
      simp only [show List.range 1 = [0] from rfl, List.map_singleton, Nat.zero_mul,
        Nat.shiftRight_zero, h7, Nat.lt_irrefl, if_false]
      have hand : v &&& 0x7f = v := by
        have hm := Nat.and_pow_two_sub_one_eq_mod v 7
        norm_num at hm
        rw [show (0x7f : Nat) = 127 by rfl, hm]
        omega
      rw [hand]
      simp
    · rw [VarInt_emitRec, if_neg (Nat.not_lt.mpr h)]
      have hlt : v >>> 7 < v := by
        simp only [Nat.shiftRight_eq_div_pow]
        exact Nat.div_lt_self (by omega) (by norm_num)
      rw [← ih _ hlt]
      unfold VarInt_emit
      rw [VarInt_numBytes_shiftRight h, List.range_succ_eq_map, List.map_cons, List.map_map]
      congr 1
      · have h1 : 0 < v >>> ((0 + 1) * 7) := by
          simp only [Nat.shiftRight_eq_div_pow]
          have : 0 < v / 2 ^ 7 := Nat.div_pos (by omega) (by norm_num)
          simpa using this
        simp only [Nat.zero_mul, Nat.shiftRight_zero, h1, if_pos]
      · apply List.map_congr_left
        intro i _
        have e1 : ∀ j : Nat, v >>> 7 >>> (j * 7) = v >>> ((j + 1) * 7) := by
          intro j
          rw [← Nat.shiftRight_add]
          congr 1
          ring
        simp only [Function.comp_apply, e1]

lemma add128_and128 (a : Nat) (ha : a < 128) : (a + 128) &&& 128 = 128 := by
  have h1 := Nat.and_two_pow (a + 128) 7
  have ht : (a + 128).testBit 7 = true := by
    rw [Nat.testBit_to_div_mod]
    have hdiv : (a + 128) / 2 ^ 7 = 1 := by
      norm_num
      omega
    rw [hdiv]
    rfl
  rw [ht] at h1
  norm_num at h1
  exact h1

lemma add128_and127 (a : Nat) (ha : a < 128) : (a + 128) &&& 127 = a := by
  have hm := Nat.and_pow_two_sub_one_eq_mod (a + 128) 7
  norm_num at hm
  rw [hm]
  omega

lemma VarInt_parseAux_emitRec (fuel : Nat) :
    ∀ v i acc rest, v < 2 ^ (7 * (fuel + 1)) → acc < 2 ^ (7 * i) →
      VarInt_parseAux (fuel + 1) (VarInt_emitRec v ++ rest) i acc =
        some (acc + v * 2 ^ (7 * i), rest) := by
  induction fuel with
  | zero =>
    intro v i acc rest hv hacc
    have hv128 : v < 128 := by norm_num at hv; exact hv
    rw [VarInt_emitRec, if_pos hv128, List.cons_append, List.nil_append]
    show VarInt_parseAux 1 (v :: rest) i acc = _
    have hand : v &&& 0x7f = v := by
      have hm := Nat.and_pow_two_sub_one_eq_mod v 7
      norm_num at hm
      rw [show (0x7f : Nat) = 127 by rfl, hm]
      omega
    have hcont : v &&& 0x80 = 0 := by
      rw [show (0x80 : Nat) = 2 ^ 7 by rfl, Nat.and_two_pow,
        Nat.testBit_eq_false_of_lt (by omega : v < 2 ^ 7)]
      rfl
    simp only [VarInt_parseAux, hand, hcont, if_pos]
    rw [or_shiftLeft_eq_add (7 * i) acc v hacc]
  | succ fuel ih =>
    intro v i acc rest hv hacc
    rcases lt_or_le v 128 with hv128 | hv128
    · rw [VarInt_emitRec, if_pos hv128, List.cons_append, List.nil_append]
      have hand : v &&& 0x7f = v := by
        have hm := Nat.and_pow_two_sub_one_eq_mod v 7
        norm_num at hm
        rw [show (0x7f : Nat) = 127 by rfl, hm]
        omega
      have hcont : v &&& 0x80 = 0 := by
        rw [show (0x80 : Nat) = 2 ^ 7 by rfl, Nat.and_two_pow,
          Nat.testBit_eq_false_of_lt (by omega : v < 2 ^ 7)]
        rfl
      simp only [VarInt_parseAux, hand, hcont, if_pos]
      rw [or_shiftLeft_eq_add (7 * i) acc v hacc]
    · rw [VarInt_emitRec, if_neg (Nat.not_lt.mpr hv128), List.cons_append]
      have hmod : v &&& 0x7f = v % 128 := by
        have hm := Nat.and_pow_two_sub_one_eq_mod v 7
        norm_num at hm
        rw [show (0x7f : Nat) = 127 by rfl, hm]
      have hble : v % 128 < 2 ^ 7 := by
        have : v % 128 < 128 := Nat.mod_lt _ (by norm_num)
        omega
      have hb : (v &&& 0x7f ||| 0x80) = v % 128 + 128 := by
        have h1 := or_shiftLeft_eq_add 7 (v % 128) 1 hble
        have h2 : (1 <<< 7 : Nat) = 0x80 := by decide
        rw [h2] at h1
        rw [hmod, h1]
        norm_num
      have hbyte : (v &&& 0x7f ||| 0x80) &&& 0x80 = 128 := by
        rw [hb]
        exact add128_and128 _ (Nat.mod_lt _ (by norm_num))
      have hbyte' : (v &&& 0x7f ||| 0x80) &&& 0x7f = v % 128 := by
        rw [hb]
        exact add128_and127 _ (Nat.mod_lt _ (by norm_num))
      show VarInt_parseAux (fuel + 1 + 1) (_ :: (VarInt_emitRec (v >>> 7) ++ rest)) i acc = _
      simp only [VarInt_parseAux, hbyte, hbyte']
      rw [if_neg (by norm_num : ¬ (128 : Nat) = 0)]
      have hvs : v >>> 7 < 2 ^ (7 * (fuel + 1)) := by
        rw [Nat.shiftRight_eq_div_pow, Nat.div_lt_iff_lt_mul (by norm_num : 0 < 2 ^ 7),
          ← Nat.pow_add]
        have e : 7 * (fuel + 1) + 7 = 7 * (fuel + 1 + 1) := by ring
        rw [e]
        exact hv
      have haccadd : acc ||| (v % 128) <<< (7 * i) = acc + v % 128 * 2 ^ (7 * i) :=
        or_shiftLeft_eq_add (7 * i) acc (v % 128) hacc
      have hacc' : acc ||| (v % 128) <<< (7 * i) < 2 ^ (7 * (i + 1)) := by
        rw [haccadd]
        have h2 : 2 ^ (7 * (i + 1)) = 2 ^ (7 * i) * 2 ^ 7 := by
          rw [← Nat.pow_add]
          ring_nf
        have h3 : v % 128 * 2 ^ (7 * i) ≤ 127 * 2 ^ (7 * i) :=
          Nat.mul_le_mul_right _ (by omega)
        have h4 : (2 ^ 7 : Nat) = 128 := by norm_num
        rw [h2, h4]
        have h5 : (0 : Nat) < 2 ^ (7 * i) := Nat.pos_pow_of_pos _ (by norm_num)
        nlinarith
      rw [ih (v >>> 7) (i + 1) _ rest hvs hacc']
      congr 2
      rw [haccadd]
      have e2 : 7 * (i + 1) = 7 * i + 7 := by ring
      rw [e2, Nat.pow_add, Nat.shiftRight_eq_div_pow]
      have e3 : (2 ^ 7 : Nat) = 128 := by norm_num
      rw [e3]
      have hveq : 128 * (v / 128) + v % 128 = v := Nat.div_add_mod v 128
      nlinarith

lemma VarInt_numBytes_le_five {v : Nat} (h : v < 2 ^ 31) : VarInt_numBytes v ≤ 5 := by
  unfold VarInt_numBytes
  have hsz : Nat.size v ≤ 31 := Nat.size_le.mpr h
  have : (Nat.size v - 1) / 7 ≤ 30 / 7 := Nat.div_le_div_right (by omega)
  omega

/-- C3: for every `v < 2^31`, parsing the varint emission of `v` (followed by
any trailing bytes) returns `v` and the trailing bytes; the emission's length
is `(bitlength v - 1) / 7 + 1` — i.e. determined by `v`'s highest set bit —
which lies in `{1, …, 5}`, and is exactly `1` when `v = 0`. -/
theorem varint_roundtrip_and_length (v : Nat) (rest : List Nat) (h : v < 2 ^ 31) :
    VarInt_parse (VarInt_emit v ++ rest) = some (v, rest) ∧
    (VarInt_emit v).length = (Nat.size v - 1) / 7 + 1 ∧
    1 ≤ (VarInt_emit v).length ∧ (VarInt_emit v).length ≤ 5 ∧
    (v = 0 → (VarInt_emit v).length = 1) := by
  have hlen : (VarInt_emit v).length = VarInt_numBytes v := by
    unfold VarInt_emit
    rw [List.length_map, List.length_range]
  refine ⟨?_, ?_, ?_, ?_, ?_⟩
  · rw [VarInt_emit_eq_emitRec]
    have hv : v < 2 ^ (7 * (4 + 1)) := lt_of_lt_of_le h (by norm_num)
    have := VarInt_parseAux_emitRec 4 v 0 0 rest hv (by norm_num)
    unfold VarInt_parse
    rw [this]
    norm_num
  · rw [hlen]; rfl
  · rw [hlen]; unfold VarInt_numBytes; omega
  · rw [hlen]; exact VarInt_numBytes_le_five h
  · intro hv0
    rw [hlen, hv0]
    unfold VarInt_numBytes
    rw [Nat.size_zero]

/-- Witness: the theorem applied at `v = 300`, whose varint encoding is two
bytes `[0xAC, 0x02]`. -/
theorem varint_roundtrip_and_length_witness :
    VarInt_parse (VarInt_emit 300 ++ [7]) = some (300, [7]) ∧
    (VarInt_emit 300).length = 2 := by
  have h := varint_roundtrip_and_length 300 [7] (by norm_num)
  refine ⟨h.1, ?_⟩
  have hs : Nat.size 300 = 9 := by
    apply Nat.le_antisymm
    · exact Nat.size_le.mpr (by norm_num)
    · exact Nat.lt_size.mpr (by norm_num)
  rw [h.2.1, hs]

/-! ### String codec (`mc4p/parsing.py`, class `String`)

A Python unicode string is a `List Nat` of code points.  `String.emit`
writes `VarInt.emit(len(value)) + value.encode("utf-8")` — note that
`len(value)` is the number of *code points*, not UTF-8 bytes.
`String.parse` reads a varint `n`, takes `n` *bytes* and UTF-8-decodes
them (a decode error — Python's `UnicodeDecodeError` — is `none`). -/

def utf8EncodeChar (c : Nat) : List Nat :=
  if c < 0x80 then [c]
  else if c < 0x800 then
    [0xC0 ||| (c >>> 6), 0x80 ||| (c &&& 0x3F)]
  else if c < 0x10000 then
    [0xE0 ||| (c >>> 12), 0x80 ||| ((c >>> 6) &&& 0x3F), 0x80 ||| (c &&& 0x3F)]
  else
    [0xF0 ||| (c >>> 18), 0x80 ||| ((c >>> 12) &&& 0x3F),
     0x80 ||| ((c >>> 6) &&& 0x3F), 0x80 ||| (c &&& 0x3F)]

def utf8Encode (s : List Nat) : List Nat := (s.map utf8EncodeChar).flatten

def utf8Cont (b : Nat) : Bool := 0x80 ≤ b && b < 0xC0

/-- Strict UTF-8 decoding (rejects truncated sequences, stray continuation
bytes, overlongs and surrogates, as Python's strict `utf-8` codec does). -/
def utf8DecodeAux : Nat → List Nat → Option (List Nat)
  | _, [] => some []
  | 0, _ :: _ => none
  | fuel + 1, b :: rest =>
    if b < 0x80 then (utf8DecodeAux fuel rest).map (b :: ·)
    else if b < 0xC2 then none
    else if b < 0xE0 then
      match rest with
      | b1 :: rest1 =>
        if utf8Cont b1 then
          (utf8DecodeAux fuel rest1).map ((((b &&& 0x1F) <<< 6) ||| (b1 &&& 0x3F)) :: ·)
        else none
      | _ => none
    else if b < 0xF0 then
      match rest with
      | b1 :: b2 :: rest2 =>
        if utf8Cont b1 && utf8Cont b2 &&
            !(b = 0xE0 && b1 < 0xA0) && !(b = 0xED && 0xA0 ≤ b1) then
          (utf8DecodeAux fuel rest2).map
            ((((b &&& 0x0F) <<< 12) ||| ((b1 &&& 0x3F) <<< 6) ||| (b2 &&& 0x3F)) :: ·)
        else none
      | _ => none
    else if b < 0xF5 then
      match rest with
      | b1 :: b2 :: b3 :: rest3 =>
        if utf8Cont b1 && utf8Cont b2 && utf8Cont b3 &&
            !(b = 0xF0 && b1 < 0x90) && !(b = 0xF4 && 0x90 ≤ b1) then
          (utf8DecodeAux fuel rest3).map
            ((((b &&& 0x07) <<< 18) ||| ((b1 &&& 0x3F) <<< 12) |||
              ((b2 &&& 0x3F) <<< 6) ||| (b3 &&& 0x3F)) :: ·)
        else none
      | _ => none
    else none

def utf8Decode (bs : List Nat) : Option (List Nat) := utf8DecodeAux bs.length bs

def String_emit (s : List Nat) : List Nat :=
  VarInt_emit s.length ++ utf8Encode s

def String_parse (data : List Nat) : Option (List Nat × List Nat) :=
  match VarInt_parse data with
  | none => none
  | some (n, rest) =>
    if rest.length < n then none
    else
      match utf8Decode (rest.take n) with
      | none => none
      | some cps => some (cps, rest.drop n)

lemma VarInt_emit_one : VarInt_emit 1 = [1] := by
  unfold VarInt_emit VarInt_numBytes
  rw [Nat.size_one]
  decide

/-- C4 fails on the code: for the one-character string "é" (code point
0xE9, whose UTF-8 encoding is the two bytes 0xC3 0xA9), `String.emit`
writes the varint prefix `1` — the code-point count `len(value)`, not the
UTF-8 byte count 2 — so the emission is `[0x01, 0xC3, 0xA9]` and
`String.parse` of that emission takes only the single byte 0xC3, which is
not valid UTF-8: the parse fails instead of returning "é". -/
theorem string_emit_prefix_is_char_count :
    String_emit [0xE9] = [0x01, 0xC3, 0xA9] ∧
    (utf8Encode [0xE9]).length = 2 ∧
    String_parse (String_emit [0xE9]) = none := by
  have he : String_emit [0xE9] = [0x01, 0xC3, 0xA9] := by
    unfold String_emit
    rw [show List.length [0xE9] = 1 from rfl, VarInt_emit_one]
    decide
  refine ⟨he, by decide, ?_⟩
  rw [he]
  decide

/-! ### Position codec (`mc4p/parsing.py`, class `Position`)

`Position.parse` unpacks one 64-bit big-endian word and extracts x/y/z,
with the source's own constants kept verbatim (`y - 0x4000000` where a
12-bit sign extension would subtract 0x1000; `value & 0x4fff` for z where
the 26-bit extraction would mask with 0x3ffffff and the sign test
`z & 0x2000000` can then never fire).  `Position.emit` packs the masked
fields into the 64-bit word, `struct.pack`s it big-endian — and then
indexes `[0]`, so it returns only the first byte of the word. -/

def beCombine (bs : List Nat) : Nat := bs.foldl (fun a b => a * 256 + b) 0

def Position_parse (data : List Nat) : Option ((Int × Int × Int) × List Nat) :=
  if data.length < 8 then none
  else
    let value : Nat := beCombine (data.take 8)
    let x0 : Nat := value >>> 38
    let x : Int := if x0 &&& 0x2000000 ≠ 0 then (x0 : Int) - 0x4000000 else (x0 : Int)
    let y0 : Nat := (value >>> 26) &&& 0xfff
    let y : Int := if y0 &&& 0x800 ≠ 0 then (y0 : Int) - 0x4000000 else (y0 : Int)
    let z0 : Nat := value &&& 0x4fff
    let z : Int := if z0 &&& 0x2000000 ≠ 0 then (z0 : Int) - 0x4000000 else (z0 : Int)
    some ((x, y, z), data.drop 8)

/-- Python's `n & 0x3ffffff` on a (possibly negative) int is `n mod 2^26`,
and `& 0xfff` is `mod 2^12`; the packed word always fits 64 bits.  The
source's `struct.pack(">Q", value)[0]` keeps only the leading byte. -/
def Position_emit (x y z : Int) : List Nat :=
  let value : Nat :=
    ((x.emod (2 ^ 26)).toNat <<< 38) ||| ((y.emod (2 ^ 12)).toNat <<< 26) |||
      (z.emod (2 ^ 26)).toNat
  [(value >>> 56) &&& 0xFF]

/-- C2 fails on the code at concrete inputs.  For the word 0x0000000003FFFFFF
(x = 0, y = 0, z-bits all ones) the wire-correct decode is z = -1, but the
source's `value & 0x4fff` mask yields z = 20479.  For the word with only bit
37 set (y-bits = 0x800) a 12-bit sign extension gives y = -2048, but the
source subtracts 0x4000000 and yields y = -67106816.  And `Position.emit`
returns a single byte, not the 8-byte big-endian word. -/
theorem position_masks_and_emit_truncation :
    Position_parse [0x00, 0x00, 0x00, 0x00, 0x03, 0xFF, 0xFF, 0xFF] =
      some ((0, 0, 20479), []) ∧
    Position_parse [0x00, 0x00, 0x00, 0x20, 0x00, 0x00, 0x00, 0x00] =
      some ((0, -67106816, 0), []) ∧
    Position_emit 0 0 0 = [0] ∧
    (Position_emit 1 2 3).length = 1 := by
  refine ⟨by decide, by decide, by decide, by decide⟩

/-! ### Field descriptor trees (`mc4p/parsing.py`)

The recursive descriptor system: fixed-width big-endian integers
(`simple_type_field`), `Bool`, `VarInt`, `String`, `UUID`, `Position`,
`Array(size, item)` and `SubFields{name: field, ordered}`.  `Float`,
`Double`, `Json`, `Switch`, `Optional` and raw `Data` are not modelled
(floating point, Python's json module, and arbitrary Python callables as
conditions); the claims settled against this model only evaluate the
modelled constructors.  Parsed composite values carry the `_is_ready`
flag of `_SubStructure` (set by `_ready()` once parsing of the node is
complete). -/

inductive PField where
  | fByte
  | fShort
  | fInt
  | fLong
  | fUByte
  | fUShort
  | fUInt
  | fULong
  | fBool
  | fVarInt
  | fString
  | fUUID
  | fPosition
  | fArray (size : PField) (item : PField)
  | fSubFields (fields : List (String × PField))

inductive PValue where
  | vInt (i : Int)
  | vBool (b : Bool)
  | vStr (cps : List Nat)
  | vUUID (bytes : List Nat)
  | vPos (x y z : Int)
  | vArr (ready : Bool) (items : List PValue)
  | vSub (ready : Bool) (fields : List (String × PValue))

/-- Big-endian bytes of a `w`-byte word (`struct.pack` with `>`). -/
def beBytes (w : Nat) (v : Nat) : List Nat :=
  (List.range w).map fun i => (v >>> (8 * (w - 1 - i))) &&& 0xFF

/-- `struct.unpack` of a fixed-width big-endian integer, signed or not. -/
def parseFixed (w : Nat) (signed : Bool) (data : List Nat) : Option (Int × List Nat) :=
  if data.length < w then none
  else
    let u := beCombine (data.take w)
    let v : Int := if signed && decide (2 ^ (8 * w - 1) ≤ u) then
      (u : Int) - 2 ^ (8 * w) else (u : Int)
    some (v, data.drop w)

/-- `struct.pack` of a fixed-width big-endian integer; out-of-range values
raise `struct.error` (`none`). -/
def emitFixed (w : Nat) (signed : Bool) (v : Int) : Option (List Nat) :=
  if signed then
    if -(2 ^ (8 * w - 1) : Int) ≤ v ∧ v < 2 ^ (8 * w - 1) then
      some (beBytes w (v.emod (2 ^ (8 * w))).toNat)
    else none
  else
    if 0 ≤ v ∧ v < 2 ^ (8 * w) then some (beBytes w v.toNat) else none

mutual

/-- `Field.parse` for the modelled descriptor tree; `fuel` bounds the
recursion depth (the source recurses directly).  `Array.parse` reads its
size field, then parses that many items and marks the array ready;
`SubFields.parse` parses children in declared order and marks the record
ready. -/
def parseF : Nat → PField → List Nat → Option (PValue × List Nat)
  | 0, _, _ => none
  | fuel + 1, f, d =>
    match f with
    | .fByte => (parseFixed 1 true d).map fun x => (.vInt x.1, x.2)
    | .fShort => (parseFixed 2 true d).map fun x => (.vInt x.1, x.2)
    | .fInt => (parseFixed 4 true d).map fun x => (.vInt x.1, x.2)
    | .fLong => (parseFixed 8 true d).map fun x => (.vInt x.1, x.2)
    | .fUByte => (parseFixed 1 false d).map fun x => (.vInt x.1, x.2)
    | .fUShort => (parseFixed 2 false d).map fun x => (.vInt x.1, x.2)
    | .fUInt => (parseFixed 4 false d).map fun x => (.vInt x.1, x.2)
    | .fULong => (parseFixed 8 false d).map fun x => (.vInt x.1, x.2)
    | .fBool =>
      match d with
      | [] => none
      | b :: r => some (.vBool (b != 0), r)
    | .fVarInt => (VarInt_parse d).map fun x => (.vInt (x.1 : Int), x.2)
    | .fString => (String_parse d).map fun x => (.vStr x.1, x.2)
    | .fUUID => if d.length < 16 then none else some (.vUUID (d.take 16), d.drop 16)
    | .fPosition => (Position_parse d).map fun x => (.vPos x.1.1 x.1.2.1 x.1.2.2, x.2)
    | .fArray s i =>
      match parseF fuel s d with
      | some (.vInt n, r) =>
        (parseMany fuel i n.toNat r).map fun x => (.vArr true x.1, x.2)
      | _ => none
    | .fSubFields fs =>
      (parseFields fuel fs d).map fun x => (.vSub true x.1, x.2)

def parseMany : Nat → PField → Nat → List Nat → Option (List PValue × List Nat)
  | 0, _, _, _ => none
  | _ + 1, _, 0, d => some ([], d)
  | fuel + 1, i, n + 1, d =>
    match parseF fuel i d with
    | none => none
    | some (v, r) =>
      match parseMany fuel i n r with
      | none => none
      | some (vs, r2) => some (v :: vs, r2)

def parseFields :
    Nat → List (String × PField) → List Nat → Option (List (String × PValue) × List Nat)
  | 0, _, _ => none
  | _ + 1, [], d => some ([], d)
  | fuel + 1, (k, f) :: rest, d =>
    match parseF fuel f d with
    | none => none
    | some (v, r) =>
      match parseFields fuel rest r with
      | none => none
      | some (kvs, r2) => some ((k, v) :: kvs, r2)

end

mutual

/-- `Field.emit` for the modelled descriptor tree.  `Array.emit` emits its
length through the size field then each item; `SubFields.emit` emits each
declared child looked up by name (a missing attribute is `none`). -/
def emitF : PField → PValue → Option (List Nat)
  | .fByte, .vInt v => emitFixed 1 true v
  | .fShort, .vInt v => emitFixed 2 true v
  | .fInt, .vInt v => emitFixed 4 true v
  | .fLong, .vInt v => emitFixed 8 true v
  | .fUByte, .vInt v => emitFixed 1 false v
  | .fUShort, .vInt v => emitFixed 2 false v
  | .fUInt, .vInt v => emitFixed 4 false v
  | .fULong, .vInt v => emitFixed 8 false v
  | .fBool, .vBool b => some [if b then 1 else 0]
  | .fVarInt, .vInt v => if v < 0 then none else some (VarInt_emit v.toNat)
  | .fString, .vStr s => some (String_emit s)
  | .fUUID, .vUUID bs => some bs
  | .fPosition, .vPos x y z => some (Position_emit x y z)
  | .fArray s i, .vArr _ items =>
    match emitF s (.vInt (items.length : Int)) with
    | none => none
    | some pre => (emitMany i items).map (pre ++ ·)
  | .fSubFields fs, .vSub _ kvs => emitSub fs kvs
  | _, _ => none

def emitMany : PField → List PValue → Option (List Nat)
  | _, [] => some []
  | i, v :: vs =>
    match emitF i v with
    | none => none
    | some b =>
      match emitMany i vs with
      | none => none
      | some bs => some (b ++ bs)

def emitSub : List (String × PField) → List (String × PValue) → Option (List Nat)
  | [], _ => some []
  | (k, f) :: rest, kvs =>
    match kvs.lookup k with
    | none => none
    | some v =>
      match emitF f v with
      | none => none
      | some b =>
        match emitSub rest kvs with
        | none => none
        | some bs => some (b ++ bs)

end

lemma String_emit_e9 : String_emit [0xE9] = [0x01, 0xC3, 0xA9] := by
  unfold String_emit
  rw [show List.length [0xE9] = 1 from rfl, VarInt_emit_one]
  decide

def C1_field : PField := .fSubFields [("name", .fString)]

def C1_value : PValue := .vSub true [("name", .vStr [0xE9])]

/-- C1 fails on the code: the `SubFields` packet `{name: String}` holding
the one-character string "é" emits to `[0x01, 0xC3, 0xA9]` (character-count
length prefix), and parsing those very bytes back fails — `parse(emit(P))`
is not `P` for every packet of a known type, because `String.emit`
length-prefixes with the code-point count while `String.parse` consumes
that many bytes (and `Position.emit` returns one byte instead of eight). -/
theorem subfields_roundtrip_fails_on_string :
    emitF C1_field C1_value = some [0x01, 0xC3, 0xA9] ∧
    (parseF 9 C1_field [0x01, 0xC3, 0xA9]).isNone = true := by
  constructor
  · simp [C1_field, C1_value, emitF, emitSub, List.lookup, String_emit_e9]
  · decide

/-! ### Dirty tracking (`mc4p/parsing.py`, `_SubStructure`)

`_SubStructure._make_dirty` holds no flag of its own: it forwards to the
parent when the node is ready (`if self._parent is not None and
self._is_ready: self._parent._make_dirty()`); the chain ends at the packet
root, which records dirtiness.  `__setattr__` on a non-underscore name and
`__setitem__` call `_make_dirty`; plain `list.append` on an `_Array` is a
C-level list method and is *not* intercepted, so it never calls
`_make_dirty`.  The packet root is modelled from the spec: `PacketValue`
(protocol.py, not under src/) "carries … a dirty flag"; its `_make_dirty`
sets that flag.  A mutation is addressed by a path from the root; the
boolean returned alongside the updated tree is whether the `_make_dirty`
chain reached the packet root. -/

inductive PathStep where
  | fieldStep (name : String)
  | idxStep (i : Nat)

def assocSet : List (String × PValue) → String → PValue → List (String × PValue)
  | [], k, v => [(k, v)]
  | (k0, v0) :: rest, k, v =>
    if k0 = k then (k0, v) :: rest else (k0, v0) :: assocSet rest k v

/-- `setattr(node, name, value)` at the end of `path`: replaces the field
and reports whether dirtiness propagated to the root (each node on the
chain forwards only if it is ready). -/
def setAttrGo : PValue → List PathStep → String → PValue → Option (PValue × Bool)
  | .vSub r kvs, [], name, v => some (.vSub r (assocSet kvs name v), r)
  | .vSub r kvs, .fieldStep f :: rest, name, v =>
    match kvs.lookup f with
    | none => none
    | some child =>
      match setAttrGo child rest name v with
      | none => none
      | some (child2, sig) => some (.vSub r (assocSet kvs f child2), sig && r)
  | .vArr r items, .idxStep i :: rest, name, v =>
    match items[i]? with
    | none => none
    | some child =>
      match setAttrGo child rest name v with
      | none => none
      | some (child2, sig) => some (.vArr r (items.set i child2), sig && r)
  | _, _, _, _ => none

/-- `node[i] = value` (`__setitem__`, intercepted) at the end of `path`. -/
def setItemGo : PValue → List PathStep → Nat → PValue → Option (PValue × Bool)
  | .vArr r items, [], i, v =>
    if i < items.length then some (.vArr r (items.set i v), r) else none
  | .vSub r kvs, .fieldStep f :: rest, i, v =>
    match kvs.lookup f with
    | none => none
    | some child =>
      match setItemGo child rest i v with
      | none => none
      | some (child2, sig) => some (.vSub r (assocSet kvs f child2), sig && r)
  | .vArr r items, .idxStep j :: rest, i, v =>
    match items[j]? with
    | none => none
    | some child =>
      match setItemGo child rest i v with
      | none => none
      | some (child2, sig) => some (.vArr r (items.set j child2), sig && r)
  | _, _, _, _ => none

/-- `node.append(value)` (plain `list.append`, *not* intercepted: no
`_make_dirty` call is made, so the propagation signal is always false). -/
def appendGo : PValue → List PathStep → PValue → Option (PValue × Bool)
  | .vArr r items, [], v => some (.vArr r (items ++ [v]), false)
  | .vSub r kvs, .fieldStep f :: rest, v =>
    match kvs.lookup f with
    | none => none
    | some child =>
      match appendGo child rest v with
      | none => none
      | some (child2, sig) => some (.vSub r (assocSet kvs f child2), sig && r)
  | .vArr r items, .idxStep j :: rest, v =>
    match items[j]? with
    | none => none
    | some child =>
      match appendGo child rest v with
      | none => none
      | some (child2, sig) => some (.vArr r (items.set j child2), sig && r)
  | _, _, _ => none

/-- Modelled from the spec: the `PacketValue` root (protocol.py is not
under src/) carries the dirty flag; its `_make_dirty` sets it. -/
structure PacketRoot where
  fields : PValue
  dirty : Bool

def packet_setattr (p : PacketRoot) (path : List PathStep) (name : String)
    (v : PValue) : Option PacketRoot :=
  (setAttrGo p.fields path name v).map fun x => ⟨x.1, p.dirty || x.2⟩

def packet_setitem (p : PacketRoot) (path : List PathStep) (i : Nat)
    (v : PValue) : Option PacketRoot :=
  (setItemGo p.fields path i v).map fun x => ⟨x.1, p.dirty || x.2⟩

def packet_append (p : PacketRoot) (path : List PathStep) (v : PValue) :
    Option PacketRoot :=
  (appendGo p.fields path v).map fun x => ⟨x.1, p.dirty || x.2⟩

/-- A freshly parsed packet: the root `SubFields` tree with a clean flag. -/
def packet_parse (fuel : Nat) (fs : List (String × PField)) (d : List Nat) :
    Option PacketRoot :=
  (parseF fuel (.fSubFields fs) d).map fun x => ⟨x.1, false⟩

mutual

def allReady : PValue → Bool
  | .vArr r items => r && allReadyL items
  | .vSub r kvs => r && allReadyKV kvs
  | _ => true

def allReadyL : List PValue → Bool
  | [] => true
  | v :: vs => allReady v && allReadyL vs

def allReadyKV : List (String × PValue) → Bool
  | [] => true
  | (_, v) :: kvs => allReady v && allReadyKV kvs

end

lemma allReadyKV_lookup {kvs : List (String × PValue)} {f : String} {v : PValue}
    (h : allReadyKV kvs = true) (hl : kvs.lookup f = some v) : allReady v = true := by
  induction kvs with
  | nil => simp [List.lookup] at hl
  | cons kv rest ih =>
    obtain ⟨k0, v0⟩ := kv
    rw [allReadyKV] at h
    have h2 := Bool.and_eq_true _ _ |>.mp h
    rw [List.lookup] at hl
    cases hk : f == k0
    · simp only [hk] at hl
      exact ih h2.2 hl
    · simp only [hk, Option.some.injEq] at hl
      rw [← hl]
      exact h2.1

lemma allReadyL_get {items : List PValue} {i : Nat} {v : PValue}
    (h : allReadyL items = true) (hl : items[i]? = some v) : allReady v = true := by
  induction items generalizing i with
  | nil => simp at hl
  | cons v0 rest ih =>
    rw [allReadyL] at h
    match i with
    | 0 =>
      simp at hl
      subst hl
      exact (Bool.and_eq_true _ _ |>.mp h).1
    | i + 1 =>
      simp only [List.getElem?_cons_succ] at hl
      exact ih (Bool.and_eq_true _ _ |>.mp h).2 hl

lemma setAttrGo_signals {path : List PathStep} :
    ∀ {t : PValue} {name : String} {v t2 : PValue} {sig : Bool},
      allReady t = true → setAttrGo t path name v = some (t2, sig) → sig = true := by
  induction path with
  | nil =>
    intro t name v t2 sig hr h
    match t with
    | .vSub r kvs =>
      simp only [setAttrGo, Option.some.injEq, Prod.mk.injEq] at h
      rw [allReady] at hr
      rw [← h.2]
      exact (Bool.and_eq_true _ _ |>.mp hr).1
    | .vInt _ | .vBool _ | .vStr _ | .vUUID _ | .vPos _ _ _ | .vArr _ _ =>
      simp [setAttrGo] at h
  | cons step rest ih =>
    intro t name v t2 sig hr h
    match step, t with
    | .fieldStep f, .vSub r kvs =>
      rw [allReady] at hr
      have hr2 := Bool.and_eq_true _ _ |>.mp hr
      cases hl : kvs.lookup f with
      | none => simp [setAttrGo, hl] at h
      | some child =>
        cases hgo : setAttrGo child rest name v with
        | none => simp [setAttrGo, hl, hgo] at h
        | some pr =>
          obtain ⟨child2, sig2⟩ := pr
          simp only [setAttrGo, hl, hgo, Option.some.injEq, Prod.mk.injEq] at h
          rw [← h.2, ih (allReadyKV_lookup hr2.2 hl) hgo, hr2.1]
          rfl
    | .idxStep i, .vArr r items =>
      rw [allReady] at hr
      have hr2 := Bool.and_eq_true _ _ |>.mp hr
      cases hl : items[i]? with
      | none => simp [setAttrGo, hl] at h
      | some child =>
        cases hgo : setAttrGo child rest name v with
        | none => simp [setAttrGo, hl, hgo] at h
        | some pr =>
          obtain ⟨child2, sig2⟩ := pr
          simp only [setAttrGo, hl, hgo, Option.some.injEq, Prod.mk.injEq] at h
          rw [← h.2, ih (allReadyL_get hr2.2 hl) hgo, hr2.1]
          rfl
    | .fieldStep f, .vInt _ | .fieldStep f, .vBool _ | .fieldStep f, .vStr _
    | .fieldStep f, .vUUID _ | .fieldStep f, .vPos _ _ _ | .fieldStep f, .vArr _ _
    | .idxStep i, .vInt _ | .idxStep i, .vBool _ | .idxStep i, .vStr _
    | .idxStep i, .vUUID _ | .idxStep i, .vPos _ _ _ | .idxStep i, .vSub _ _ =>
      simp [setAttrGo] at h

lemma setItemGo_signals {path : List PathStep} :
    ∀ {t : PValue} {i : Nat} {v t2 : PValue} {sig : Bool},
      allReady t = true → setItemGo t path i v = some (t2, sig) → sig = true := by
  induction path with
  | nil =>
    intro t i v t2 sig hr h
    match t with
    | .vArr r items =>
      rw [allReady] at hr
      by_cases hi : i < items.length
      · simp only [setItemGo, if_pos hi, Option.some.injEq, Prod.mk.injEq] at h
        rw [← h.2]
        exact (Bool.and_eq_true _ _ |>.mp hr).1
      · simp [setItemGo, if_neg hi] at h
    | .vInt _ | .vBool _ | .vStr _ | .vUUID _ | .vPos _ _ _ | .vSub _ _ =>
      simp [setItemGo] at h
  | cons step rest ih =>
    intro t i v t2 sig hr h
    match step, t with
    | .fieldStep f, .vSub r kvs =>
      rw [allReady] at hr
      have hr2 := Bool.and_eq_true _ _ |>.mp hr
      cases hl : kvs.lookup f with
      | none => simp [setItemGo, hl] at h
      | some child =>
        cases hgo : setItemGo child rest i v with
        | none => simp [setItemGo, hl, hgo] at h
        | some pr =>
          obtain ⟨child2, sig2⟩ := pr
          simp only [setItemGo, hl, hgo, Option.some.injEq, Prod.mk.injEq] at h
          rw [← h.2, ih (allReadyKV_lookup hr2.2 hl) hgo, hr2.1]
          rfl
    | .idxStep j, .vArr r items =>
      rw [allReady] at hr
      have hr2 := Bool.and_eq_true _ _ |>.mp hr
      cases hl : items[j]? with
      | none => simp [setItemGo, hl] at h
      | some child =>
        cases hgo : setItemGo child rest i v with
        | none => simp [setItemGo, hl, hgo] at h
        | some pr =>
          obtain ⟨child2, sig2⟩ := pr
          simp only [setItemGo, hl, hgo, Option.some.injEq, Prod.mk.injEq] at h
          rw [← h.2, ih (allReadyL_get hr2.2 hl) hgo, hr2.1]
          rfl
    | .fieldStep f, .vInt _ | .fieldStep f, .vBool _ | .fieldStep f, .vStr _
    | .fieldStep f, .vUUID _ | .fieldStep f, .vPos _ _ _ | .fieldStep f, .vArr _ _
    | .idxStep j, .vInt _ | .idxStep j, .vBool _ | .idxStep j, .vStr _
    | .idxStep j, .vUUID _ | .idxStep j, .vPos _ _ _ | .idxStep j, .vSub _ _ =>
      simp [setItemGo] at h

lemma mapInt_allReady {X : Option (Int × List Nat)} {v : PValue} {r : List Nat}
    (h : X.map (fun x => (PValue.vInt x.1, x.2)) = some (v, r)) : allReady v = true := by
  match X with
  | none => exact Option.noConfusion h
  | some x =>
    injection h with h1
    injection h1 with h2 h3
    rw [← h2]
    simp [allReady]

lemma mapIntCast_allReady {X : Option (Nat × List Nat)} {v : PValue} {r : List Nat}
    (h : X.map (fun x => (PValue.vInt (x.1 : Int), x.2)) = some (v, r)) :
    allReady v = true := by
  match X with
  | none => exact Option.noConfusion h
  | some x =>
    injection h with h1
    injection h1 with h2 h3
    rw [← h2]
    simp [allReady]

lemma mapStr_allReady {X : Option (List Nat × List Nat)} {v : PValue} {r : List Nat}
    (h : X.map (fun x => (PValue.vStr x.1, x.2)) = some (v, r)) : allReady v = true := by
  match X with
  | none => exact Option.noConfusion h
  | some x =>
    injection h with h1
    injection h1 with h2 h3
    rw [← h2]
    simp [allReady]

lemma mapPos_allReady {X : Option ((Int × Int × Int) × List Nat)} {v : PValue}
    {r : List Nat}
    (h : X.map (fun x => (PValue.vPos x.1.1 x.1.2.1 x.1.2.2, x.2)) = some (v, r)) :
    allReady v = true := by
  match X with
  | none => exact Option.noConfusion h
  | some x =>
    injection h with h1
    injection h1 with h2 h3
    rw [← h2]
    simp [allReady]

lemma parse_allReady (fuel : Nat) :
    (∀ f d v r, parseF fuel f d = some (v, r) → allReady v = true) ∧
    (∀ i n d vs r, parseMany fuel i n d = some (vs, r) → allReadyL vs = true) ∧
    (∀ fs d kvs r, parseFields fuel fs d = some (kvs, r) → allReadyKV kvs = true) := by
  induction fuel with
  | zero =>
    refine ⟨?_, ?_, ?_⟩
    · intro f d v r h
      simp [parseF] at h
    · intro i n d vs r h
      simp [parseMany] at h
    · intro fs d kvs r h
      simp [parseFields] at h
  | succ fuel ih =>
    obtain ⟨ihF, ihM, ihFs⟩ := ih
    refine ⟨?_, ?_, ?_⟩
    · intro f d v r h
      match f with
      | .fByte | .fShort | .fInt | .fLong | .fUByte | .fUShort | .fUInt | .fULong =>
        simp only [parseF] at h
        exact mapInt_allReady h
      | .fBool =>
        match d with
        | [] => simp [parseF] at h
        | b :: rest2 =>
          simp only [parseF, Option.some.injEq, Prod.mk.injEq] at h
          rw [← h.1]
          simp [allReady]
      | .fVarInt =>
        simp only [parseF] at h
        exact mapIntCast_allReady h
      | .fString =>
        simp only [parseF] at h
        exact mapStr_allReady h
      | .fUUID =>
        by_cases hx : d.length < 16
        · simp [parseF, hx] at h
        · simp only [parseF, if_neg hx, Option.some.injEq, Prod.mk.injEq] at h
          rw [← h.1]
          simp [allReady]
      | .fPosition =>
        simp only [parseF] at h
        exact mapPos_allReady h
      | .fArray s i =>
        cases hs : parseF fuel s d with
        | none => simp [parseF, hs] at h
        | some pr =>
          obtain ⟨pv, pr2⟩ := pr
          match pv with
          | .vInt n =>
            cases hm : parseMany fuel i n.toNat pr2 with
            | none => simp [parseF, hs, hm, Option.map] at h
            | some mr =>
              obtain ⟨vs, rs⟩ := mr
              simp only [parseF, hs, hm, Option.map_some, Option.map, Option.some.injEq,
                Prod.mk.injEq] at h
              rw [← h.1]
              simp only [allReady, Bool.true_and]
              exact ihM _ _ _ _ _ hm
          | .vBool _ | .vStr _ | .vUUID _ | .vPos _ _ _ | .vArr _ _ | .vSub _ _ =>
            simp [parseF, hs] at h
      | .fSubFields fs =>
        cases hm : parseFields fuel fs d with
        | none => simp [parseF, hm, Option.map] at h
        | some mr =>
          obtain ⟨kvs, rs⟩ := mr
          simp only [parseF, hm, Option.map, Option.some.injEq, Prod.mk.injEq] at h
          rw [← h.1]
          simp only [allReady, Bool.true_and]
          exact ihFs _ _ _ _ hm
    · intro i n d vs r h
      match n with
      | 0 =>
        simp only [parseMany, Option.some.injEq, Prod.mk.injEq] at h
        rw [← h.1]
        simp [allReadyL]
      | n + 1 =>
        cases hp : parseF fuel i d with
        | none => simp [parseMany, hp] at h
        | some pr =>
          obtain ⟨pv, pr2⟩ := pr
          cases hm : parseMany fuel i n pr2 with
          | none => simp [parseMany, hp, hm] at h
          | some mr =>
            obtain ⟨mvs, mr2⟩ := mr
            simp only [parseMany, hp, hm, Option.some.injEq, Prod.mk.injEq] at h
            rw [← h.1]
            simp only [allReadyL, Bool.and_eq_true]
            exact ⟨ihF _ _ _ _ hp, ihM _ _ _ _ _ hm⟩
    · intro fs d kvs r h
      match fs with
      | [] =>
        simp only [parseFields, Option.some.injEq, Prod.mk.injEq] at h
        rw [← h.1]
        simp [allReadyKV]
      | (k, f) :: rest =>
        cases hp : parseF fuel f d with
        | none => simp [parseFields, hp] at h
        | some pr =>
          obtain ⟨pv, pr2⟩ := pr
          cases hm : parseFields fuel rest pr2 with
          | none => simp [parseFields, hp, hm] at h
          | some mr =>
            obtain ⟨mkvs, mr2⟩ := mr
            simp only [parseFields, hp, hm, Option.some.injEq, Prod.mk.injEq] at h
            rw [← h.1]
            simp only [allReadyKV, Bool.and_eq_true]
            exact ⟨ihF _ _ _ _ hp, ihFs _ _ _ _ hm⟩

/-- C7's append clause fails on the code: appending to a ready array under
a ready, clean packet succeeds but leaves the packet clean — `list.append`
is not intercepted by `_SubStructure`, so no dirty flag is set and nothing
propagates, where the claim says appending sets and propagates dirtiness. -/
theorem array_append_leaves_packet_clean :
    packet_append ⟨PValue.vSub true [("xs", PValue.vArr true [PValue.vInt 1])], false⟩
        [PathStep.fieldStep "xs"] (PValue.vInt 2) =
      some ⟨PValue.vSub true [("xs", PValue.vArr true [PValue.vInt 1, PValue.vInt 2])],
        false⟩ := by
  rfl

/-- C7 amended: a fresh parse yields a clean packet whose tree is entirely
ready, and — once the tree is ready — assigning a named field on the packet
root or any sub-`SubFields`, or replacing an array element at an index,
propagates dirtiness up the parent chain and marks the packet root dirty.
(Appending to an array does not mark anything dirty: `list.append` is not
intercepted; and sub-nodes hold no dirty flag of their own — the flag lives
at the `PacketValue` root.) -/
theorem dirty_tracking_amended :
    (∀ fuel fs d p, packet_parse fuel fs d = some p →
      p.dirty = false ∧ allReady p.fields = true) ∧
    (∀ (p : PacketRoot) path name v p2, allReady p.fields = true →
      packet_setattr p path name v = some p2 → p2.dirty = true) ∧
    (∀ (p : PacketRoot) path i v p2, allReady p.fields = true →
      packet_setitem p path i v = some p2 → p2.dirty = true) := by
  refine ⟨?_, ?_, ?_⟩
  · intro fuel fs d p h
    unfold packet_parse at h
    cases hp : parseF fuel (.fSubFields fs) d with
    | none => rw [hp] at h; cases h
    | some pr =>
      rw [hp] at h
      cases h
      exact ⟨rfl, (parse_allReady fuel).1 _ _ _ _ (by rw [hp])⟩
  · intro p path name v p2 hr h
    unfold packet_setattr at h
    cases hs : setAttrGo p.fields path name v with
    | none => rw [hs] at h; cases h
    | some pr =>
      obtain ⟨t2, sig⟩ := pr
      rw [hs] at h
      cases h
      show (p.dirty || sig) = true
      rw [setAttrGo_signals hr hs, Bool.or_true]
  · intro p path i v p2 hr h
    unfold packet_setitem at h
    cases hs : setItemGo p.fields path i v with
    | none => rw [hs] at h; cases h
    | some pr =>
      obtain ⟨t2, sig⟩ := pr
      rw [hs] at h
      cases h
      show (p.dirty || sig) = true
      rw [setItemGo_signals hr hs, Bool.or_true]

/-- Witness: assigning field "a" on a ready, clean one-field packet marks
it dirty, by the amended theorem at that concrete packet. -/
theorem dirty_tracking_amended_witness :
    packet_setattr ⟨PValue.vSub true [("a", PValue.vInt 1)], false⟩ [] "a"
        (PValue.vInt 2) =
      some ⟨PValue.vSub true [("a", PValue.vInt 2)], true⟩ ∧
    (⟨PValue.vSub true [("a", PValue.vInt 2)], true⟩ : PacketRoot).dirty = true := by
  refine ⟨by rfl, ?_⟩
  exact dirty_tracking_amended.2.1 ⟨PValue.vSub true [("a", PValue.vInt 1)], false⟩
    [] "a" (PValue.vInt 2) ⟨PValue.vSub true [("a", PValue.vInt 2)], true⟩
    (by simp [allReady, allReadyKV]) (by rfl)

/-! ### Buffered streams (`mc4p/stream.py`)

The ring buffer of `BufferedPacketStream` (`BUFFER_SIZE = 1 << 20`): a byte
buffer with `read_pos`, `write_pos` and a `full` flag disambiguating
`read_pos == write_pos`.  The buffer is a total function `Nat → Nat`
(indices ≥ `BUFFER_SIZE` are never read); a Python slice `buf[a:b]` of the
`BUFFER_SIZE`-byte buffer is `bufSlice`.  Raising `PartialPacketException`
is `.error .partialPacket`; an `IOError` is `.error .ioError`.  Each
operation returns its result *and* the state as mutated so far, so that a
raise observed by the caller carries the in-progress mutations, exactly as
in Python. -/

def BUFFER_SIZE : Nat := 1 <<< 20

structure BufState where
  buf : Nat → Nat
  write_pos : Nat
  read_pos : Nat
  full : Bool
  compression_threshold : Option Int
  cipher : Option (List Nat → List Nat)

/-- `BufferedPacketStream.bytes_used`. -/
def bytes_used (s : BufState) : Nat :=
  if s.write_pos > s.read_pos then s.write_pos - s.read_pos
  else if s.read_pos = s.write_pos then (if s.full then BUFFER_SIZE else 0)
  else BUFFER_SIZE - s.read_pos + s.write_pos

def bytes_avail (s : BufState) : Nat := BUFFER_SIZE - bytes_used s

def bufSlice (buf : Nat → Nat) (a b : Nat) : List Nat :=
  (List.range (min b BUFFER_SIZE - a)).map fun i => buf (a + i)

inductive StreamErr where
  | partialPacket
  | ioError

/-- `BufferedPacketStream._read(n)`: underflow raises
`PartialPacketException` without mutation; otherwise the slice is taken,
`read_pos` advances by `n`, and a wrap past `BUFFER_SIZE` is unwound with
the wrapped-around prefix appended. -/
def stream_read (s : BufState) (n : Nat) : Except StreamErr (List Nat) × BufState :=
  if n > bytes_used s then (.error .partialPacket, s)
  else
    let data := bufSlice s.buf s.read_pos (s.read_pos + n)
    let rp := s.read_pos + n
    if BUFFER_SIZE < rp then
      (.ok (data ++ bufSlice s.buf 0 (rp - BUFFER_SIZE)),
        { s with read_pos := rp - BUFFER_SIZE })
    else
      (.ok data, { s with read_pos := rp })

/-- `BufferedPacketInputStream._read_varint(return_length=True)`: up to five
one-byte `_read`s; returns the value and the byte count, `IOError` past
five bytes. -/
def stream_read_varint_go :
    Nat → BufState → Nat → Nat → Except StreamErr (Nat × Nat) × BufState
  | 0, s, _, _ => (.error .ioError, s)
  | fuel + 1, s, i, acc =>
    match stream_read s 1 with
    | (.error e, s1) => (.error e, s1)
    | (.ok bytes, s1) =>
      let b := bytes.headD 0
      let acc2 := acc ||| ((b &&& 0x7f) <<< (7 * i))
      if b &&& 0x80 = 0 then (.ok (acc2, i + 1), s1)
      else stream_read_varint_go fuel s1 (i + 1) acc2

def stream_read_varint (s : BufState) : Except StreamErr (Nat × Nat) × BufState :=
  stream_read_varint_go 5 s 0 0

inductive Frame where
  | raw (payload : List Nat)
  | compressed (payload : List Nat) (uncompressed_length : Nat)

/-- Steps 2–4 of `read_packet`: frame length varint; when a compression
threshold is set, the uncompressed-length varint whose encoded byte count
`k` is deducted from the frame length (the source's `length -= varint_length`,
here on `Nat`); then the payload bytes, wrapped as compressed data iff
`uncompressed_length` is nonzero. -/
def read_packet_body (s : BufState) : Except StreamErr Frame × BufState :=
  match stream_read_varint s with
  | (.error e, s1) => (.error e, s1)
  | (.ok (length, _), s1) =>
    match s.compression_threshold with
    | some _ =>
      match stream_read_varint s1 with
      | (.error e, s2) => (.error e, s2)
      | (.ok (ul, k), s2) =>
        match stream_read s2 (length - k) with
        | (.error e, s3) => (.error e, s3)
        | (.ok payload, s3) =>
          (.ok (if ul ≠ 0 then Frame.compressed payload ul else Frame.raw payload), s3)
    | none =>
      match stream_read s1 length with
      | (.error e, s2) => (.error e, s2)
      | (.ok payload, s2) => (.ok (Frame.raw payload), s2)

/-- `BufferedPacketInputStream.read_packet`: remember `last_boundary`, run
the frame reads; a `PartialPacketException` restores
`read_pos = last_boundary` and re-raises; success clears `full`.  (The
protocol-table dispatch on the extracted payload lives in the unmodelled
protocol module and does not touch the ring buffer.) -/
def read_packet (s : BufState) : Except StreamErr Frame × BufState :=
  let last_boundary := s.read_pos
  match read_packet_body s with
  | (.ok f, s1) => (.ok f, { s1 with full := false })
  | (.error .partialPacket, s1) =>
    (.error .partialPacket, { s1 with read_pos := last_boundary })
  | (.error .ioError, s1) => (.error .ioError, s1)

/-- Everything except `read_pos` is untouched by the `_read` path. -/
def sameExceptRead (s t : BufState) : Prop :=
  t.buf = s.buf ∧ t.write_pos = s.write_pos ∧ t.full = s.full ∧
  t.compression_threshold = s.compression_threshold ∧ t.cipher = s.cipher

lemma sameExceptRead_refl (s : BufState) : sameExceptRead s s :=
  ⟨rfl, rfl, rfl, rfl, rfl⟩

lemma sameExceptRead_trans {s t u : BufState} (h1 : sameExceptRead s t)
    (h2 : sameExceptRead t u) : sameExceptRead s u := by
  obtain ⟨a1, b1, c1, d1, e1⟩ := h1
  obtain ⟨a2, b2, c2, d2, e2⟩ := h2
  exact ⟨a2.trans a1, b2.trans b1, c2.trans c1, d2.trans d1, e2.trans e1⟩

lemma stream_read_frame (s : BufState) (n : Nat) :
    sameExceptRead s (stream_read s n).2 := by
  unfold stream_read
  by_cases h : n > bytes_used s
  · rw [if_pos h]
    exact sameExceptRead_refl s
  · rw [if_neg h]
    by_cases h2 : BUFFER_SIZE < s.read_pos + n
    · simp only [h2, if_pos]
      exact ⟨rfl, rfl, rfl, rfl, rfl⟩
    · simp only [h2, if_neg, if_false]
      exact ⟨rfl, rfl, rfl, rfl, rfl⟩

lemma stream_read_varint_go_frame (fuel : Nat) :
    ∀ s i acc, sameExceptRead s (stream_read_varint_go fuel s i acc).2 := by
  induction fuel with
  | zero =>
    intro s i acc
    exact sameExceptRead_refl s
  | succ fuel ih =>
    intro s i acc
    rw [stream_read_varint_go]
    cases hr : stream_read s 1 with
    | mk r s1 =>
      have hf : sameExceptRead s s1 := by
        have := stream_read_frame s 1
        rw [hr] at this
        exact this
      match r with
      | .error e => exact hf
      | .ok bytes =>
        by_cases hb : (bytes.headD 0) &&& 0x80 = 0
        · simp only [hb, if_pos]
          exact hf
        · simp only [hb, if_neg, if_false]
          exact sameExceptRead_trans hf (ih s1 _ _)

lemma stream_read_varint_frame (s : BufState) :
    sameExceptRead s (stream_read_varint s).2 :=
  stream_read_varint_go_frame 5 s 0 0

lemma read_packet_body_frame (s : BufState) :
    sameExceptRead s (read_packet_body s).2 := by
  unfold read_packet_body
  split
  · rename_i e s1 hv
    have h1 := stream_read_varint_frame s
    rw [hv] at h1
    exact h1
  · rename_i length k0 s1 hv
    have h1 := stream_read_varint_frame s
    rw [hv] at h1
    split
    · split
      · rename_i e s2 hv2
        have h2 := stream_read_varint_frame s1
        rw [hv2] at h2
        exact sameExceptRead_trans h1 h2
      · rename_i ul k s2 hv2
        have h2 := stream_read_varint_frame s1
        rw [hv2] at h2
        split
        · rename_i e s3 hr3
          have h3 := stream_read_frame s2 (length - k)
          rw [hr3] at h3
          exact sameExceptRead_trans (sameExceptRead_trans h1 h2) h3
        · rename_i payload s3 hr3
          have h3 := stream_read_frame s2 (length - k)
          rw [hr3] at h3
          exact sameExceptRead_trans (sameExceptRead_trans h1 h2) h3
    · split
      · rename_i e s2 hr2
        have h2 := stream_read_frame s1 length
        rw [hr2] at h2
        exact sameExceptRead_trans h1 h2
      · rename_i payload s2 hr2
        have h2 := stream_read_frame s1 length
        rw [hr2] at h2
        exact sameExceptRead_trans h1 h2

/-- C5: whenever `read_packet` raises `PartialPacketException` — while
reading the frame-length varint, the optional uncompressed-length varint,
or the payload — the returned state has `read_pos` restored to the frame
boundary recorded at entry, and the buffer contents, `write_pos` and
`full` flag are those of entry: the read position is never advanced past
an incomplete frame. -/
theorem read_packet_partial_restores (s : BufState)
    (h : (read_packet s).1 = .error .partialPacket) :
    (read_packet s).2.read_pos = s.read_pos ∧
    (read_packet s).2.buf = s.buf ∧
    (read_packet s).2.write_pos = s.write_pos ∧
    (read_packet s).2.full = s.full := by
  have hf := read_packet_body_frame s
  unfold read_packet at h ⊢
  split at h
  · rename_i f s1 heq
    simp at h
  · rename_i s1 heq
    rw [heq] at hf
    exact ⟨rfl, hf.1, hf.2.1, hf.2.2.1⟩
  · rename_i s1 heq
    simp at h

/-- Witness: on an empty buffer `read_packet` raises `PartialPacket` at the
first length byte and the state is returned intact. -/
theorem read_packet_partial_restores_witness :
    (read_packet ⟨fun _ => 0, 0, 0, false, none, none⟩).1 =
      Except.error StreamErr.partialPacket ∧
    (read_packet ⟨fun _ => 0, 0, 0, false, none, none⟩).2.read_pos = 0 := by
  refine ⟨rfl, ?_⟩
  exact (read_packet_partial_restores ⟨fun _ => 0, 0, 0, false, none, none⟩ rfl).1

/-- `BufferedPacketStream.enable_encryption`: asserts the buffer is empty,
installs the cipher and replaces the buffer with a fresh one (the assert
failing is `none`). -/
def enable_encryption (s : BufState) (c : List Nat → List Nat) : Option BufState :=
  if bytes_used s = 0 then some { s with cipher := some c, buf := fun _ => 0 }
  else none

/-- `BufferedPacketStream._write(buf_func)` with the socket delivering
`incoming`: the contiguous writable window starts at `write_pos` and runs
to `read_pos` (if ahead) or to the end of the buffer; a full buffer raises
`IOError`; `buf_func` stores `min (len incoming) (window)` bytes, which are
decrypted in place when a cipher is installed, before `write_pos` advances
modulo `BUFFER_SIZE` and `full` is recomputed. -/
def stream_write (s : BufState) (incoming : List Nat) :
    Except StreamErr (Nat × BufState) :=
  let partLen := if s.read_pos > s.write_pos then s.read_pos - s.write_pos
                 else BUFFER_SIZE - s.write_pos
  if s.full then .error .ioError
  else
    let n := min incoming.length partLen
    if n = 0 then .ok (0, s)
    else
      let written := incoming.take n
      let stored := match s.cipher with
        | some c => c written
        | none => written
      let wp2 := (s.write_pos + n) % BUFFER_SIZE
      .ok (n, { s with
        buf := fun j => if s.write_pos ≤ j ∧ j < s.write_pos + n then
          stored.getD (j - s.write_pos) 0 else s.buf j,
        write_pos := wp2,
        full := s.read_pos == wp2 })

/-- C10: `enable_encryption`'s assertion passes exactly when the ring
buffer holds no bytes (under the representation invariants
`read_pos ≤ BUFFER_SIZE`, `write_pos < BUFFER_SIZE`, `full → read_pos =
write_pos`, emptiness is `read_pos ≡ write_pos (mod BUFFER_SIZE)` with the
`full` flag clear); and once a cipher is installed, a successful
`recv_from` write of `n > 0` bytes leaves the decrypted bytes — the cipher
applied to exactly the `n` bytes taken from the socket — in the window
`[write_pos, write_pos + n)`, advances `write_pos` by `n` modulo
`BUFFER_SIZE`, and touches no byte outside the window. -/
theorem enable_encryption_and_write_window (s : BufState)
    (c : List Nat → List Nat) (incoming : List Nat)
    (hrp : s.read_pos ≤ BUFFER_SIZE) (hwp : s.write_pos < BUFFER_SIZE)
    (hfull : s.full = true → s.read_pos = s.write_pos) :
    ((enable_encryption s c).isSome = true ↔ bytes_used s = 0) ∧
    (bytes_used s = 0 ↔
      (s.read_pos % BUFFER_SIZE = s.write_pos ∧ s.full = false)) ∧
    (∀ n s2, s.cipher = some c → stream_write s incoming = .ok (n, s2) → 0 < n →
      (∀ j, j < n → s2.buf (s.write_pos + j) = (c (incoming.take n)).getD j 0) ∧
      s2.write_pos = (s.write_pos + n) % BUFFER_SIZE ∧
      (∀ j, (j < s.write_pos ∨ s.write_pos + n ≤ j) → s2.buf j = s.buf j)) := by
  have hB : BUFFER_SIZE = 1048576 := by decide
  refine ⟨?_, ?_, ?_⟩
  · unfold enable_encryption
    by_cases h : bytes_used s = 0
    · rw [if_pos h]
      simp [h]
    · rw [if_neg h]
      simp [h]
  · unfold bytes_used
    rcases Nat.lt_trichotomy s.read_pos s.write_pos with hlt | heq | hgt
    · rw [if_pos hlt]
      constructor
      · intro h0
        omega
      · intro ⟨hmod, _⟩
        rw [Nat.mod_eq_of_lt (by omega)] at hmod
        omega
    · rw [if_neg (by omega), if_pos heq]
      cases hfl : s.full
      · simp only [if_false]
        constructor
        · intro _
          exact ⟨by rw [heq, Nat.mod_eq_of_lt (by omega)], trivial⟩
        · intro _
          rfl
      · simp only [if_true]
        constructor
        · intro h0
          omega
        · intro ⟨_, hcon⟩
          cases hcon
    · rw [if_neg (by omega), if_neg (by omega)]
      have hnf : s.full = false := by
        cases hfl : s.full
        · rfl
        · have := hfull hfl
          omega
      constructor
      · intro h0
        have hrB : s.read_pos = BUFFER_SIZE ∧ s.write_pos = 0 := by omega
        refine ⟨?_, hnf⟩
        rw [hrB.1, hrB.2, Nat.mod_self]
      · intro ⟨hmod, _⟩
        rcases Nat.lt_or_ge s.read_pos BUFFER_SIZE with hlt2 | hge2
        · rw [Nat.mod_eq_of_lt hlt2] at hmod
          omega
        · have hrB : s.read_pos = BUFFER_SIZE := by omega
          rw [hrB, Nat.mod_self] at hmod
          omega
  · intro n s2 hc hw hn
    unfold stream_write at hw
    rw [if_neg (by intro hfl; rw [hfl] at hw; cases hw)] at hw
    by_cases hz :
        min incoming.length
          (if s.read_pos > s.write_pos then s.read_pos - s.write_pos
           else BUFFER_SIZE - s.write_pos) = 0
    · rw [if_pos hz] at hw
      injection hw with hw1
      injection hw1 with hwn hws
      omega
    · rw [if_neg hz] at hw
      rw [hc] at hw
      injection hw with hw1
      injection hw1 with hwn hws
      subst hwn
      subst hws
      refine ⟨?_, rfl, ?_⟩
      · intro j hj
        simp only
        rw [if_pos ⟨Nat.le_add_right _ _, by omega⟩]
        congr 1
        omega
      · intro j hj
        simp only
        rw [if_neg (by omega)]

/-- Witness: the theorem applied at the empty stream — the assertion iff
holds there and the buffer is indeed empty. -/
theorem enable_encryption_and_write_window_witness :
    ((enable_encryption ⟨fun _ => 0, 0, 0, false, none, none⟩ id).isSome = true ↔
      bytes_used ⟨fun _ => 0, 0, 0, false, none, none⟩ = 0) ∧
    bytes_used ⟨fun _ => 0, 0, 0, false, none, none⟩ = 0 := by
  refine ⟨(enable_encryption_and_write_window ⟨fun _ => 0, 0, 0, false, none, none⟩
    id [] (by decide) (by decide) (by decide)).1, by decide⟩

/-! ### Paired stream state transitions (`mc4p/stream.py`, `PacketStream.change_context`)

`change_context` sets this stream's context and protocol, then — when a
partner is paired — sets the partner's context to
`context.protocol.directions[partner.context.direction].states[context.state]`
and the partner's protocol to `context.protocol`.  The protocol module is
not under src/; contexts are modelled from the spec. -/

inductive Direction where
  | client_bound
  | server_bound

def Direction.opposite : Direction → Direction
  | .client_bound => .server_bound
  | .server_bound => .client_bound

inductive ProtoState where
  | handshake
  | status
  | login
  | play

/-- Modelled from the spec: protocol.py is not under src/.  A context is
the handle `protocol.directions[direction].states[state]`: it knows its
protocol version, its direction and its state (§3: a ProtocolVersion owns
a mapping Direction × State → PacketTable). -/
structure Context where
  version : Nat
  direction : Direction
  state : ProtoState

/-- Modelled from the spec: `protocol.directions[d].states[st]` for a
protocol version. -/
def protocolContext (version : Nat) (d : Direction) (st : ProtoState) : Context :=
  ⟨version, d, st⟩

structure PStream where
  protocolVersion : Nat
  context : Context

/-- `PacketStream.change_context` acting on a paired pair at once: the
stream itself takes the new context and its protocol; the sibling is
advanced to the same state looked up under its own direction, on the same
protocol. -/
def change_context (self partner : PStream) (ctx : Context) : PStream × PStream :=
  ({ self with context := ctx, protocolVersion := ctx.version },
   { partner with
      context := protocolContext ctx.version partner.context.direction ctx.state,
      protocolVersion := ctx.version })

/-- C6: after `change_context` on either stream of a pair whose directions
are opposite (the pairing invariant) with a context of the stream's own
direction, both streams' states are equal, their directions are opposite,
and both run the same protocol version. -/
theorem change_context_pairing (self partner : PStream) (ctx : Context)
    (hopp : partner.context.direction = self.context.direction.opposite)
    (hdir : ctx.direction = self.context.direction) :
    (change_context self partner ctx).1.context.state =
      (change_context self partner ctx).2.context.state ∧
    (change_context self partner ctx).2.context.direction =
      (change_context self partner ctx).1.context.direction.opposite ∧
    (change_context self partner ctx).1.protocolVersion =
      (change_context self partner ctx).2.protocolVersion := by
  unfold change_context protocolContext
  refine ⟨rfl, ?_, rfl⟩
  simp only
  rw [hopp, hdir]

/-- Witness: a handshake-state pair moved to `login` by the server-bound
leg. -/
theorem change_context_pairing_witness :
    (change_context ⟨0, ⟨0, .server_bound, .handshake⟩⟩
        ⟨0, ⟨0, .client_bound, .handshake⟩⟩ ⟨0, .server_bound, .login⟩).1.context.state =
      (change_context ⟨0, ⟨0, .server_bound, .handshake⟩⟩
        ⟨0, ⟨0, .client_bound, .handshake⟩⟩ ⟨0, .server_bound, .login⟩).2.context.state :=
  (change_context_pairing ⟨0, ⟨0, .server_bound, .handshake⟩⟩
    ⟨0, ⟨0, .client_bound, .handshake⟩⟩ ⟨0, .server_bound, .login⟩ rfl rfl).1

/-! ### Packet handler dispatch (`mc4p/network.py`, `Endpoint._call_packet_handlers`;
`mc4p/proxy.py`, `ProxyClientHandler.handle_packet`)

The handlers registered for the packet's `(state, packet_name)` key are a
list (registrations append); each handler is identified by its position's
id and a consumption predicate.  `_call_packet_handlers` iterates a copy of
the list and returns consumed at the first handler returning truthy;
`_recv` then falls back to `handle_packet`, which the proxy overrides to
`self.real_server.send(packet); return True`. -/

def dispatch_handlers {α : Type} : List (Nat × (α → Bool)) → α → List Nat × Bool
  | [], _ => ([], false)
  | (i, f) :: rest, p =>
    if f p then ([i], true)
    else
      let r := dispatch_handlers rest p
      (i :: r.1, r.2)

/-- The proxy's default `handle_packet`: forward to the other endpoint's
`send` and report consumed. -/
def proxy_handle_packet {α : Type} (partnerSent : List α) (p : α) : List α × Bool :=
  (partnerSent ++ [p], true)

/-- The `_recv` dispatch step: handlers first, default `handle_packet`
only when none consumed.  Returns (invoked handler ids, partner's sent
packets, consumed). -/
def recv_dispatch {α : Type} (handlers : List (Nat × (α → Bool)))
    (partnerSent : List α) (p : α) : List Nat × List α × Bool :=
  let d := dispatch_handlers handlers p
  if d.2 then (d.1, partnerSent, true)
  else
    let h := proxy_handle_packet partnerSent p
    (d.1, h.1, h.2)

/-- C8: handlers run in registration order and dispatch stops at the first
consumer — the invoked ids are exactly the list prefix through the first
handler whose predicate holds (all of them when none does), and the
consumed flag is whether any handler consumed; when no handler consumes,
the proxy default forwards the packet to the partner and the packet ends
consumed either way. -/
theorem handler_dispatch_order {α : Type} (handlers : List (Nat × (α → Bool)))
    (sent : List α) (p : α) :
    (dispatch_handlers handlers p).1 =
      (handlers.map Prod.fst).take (handlers.findIdx (fun h => h.2 p) + 1) ∧
    (dispatch_handlers handlers p).2 = handlers.any (fun h => h.2 p) ∧
    (handlers.any (fun h => h.2 p) = false →
      recv_dispatch handlers sent p =
        ((dispatch_handlers handlers p).1, sent ++ [p], true)) ∧
    (handlers.any (fun h => h.2 p) = true →
      recv_dispatch handlers sent p =
        ((dispatch_handlers handlers p).1, sent, true)) := by
  have hmain : (dispatch_handlers handlers p).1 =
      (handlers.map Prod.fst).take (handlers.findIdx (fun h => h.2 p) + 1) ∧
      (dispatch_handlers handlers p).2 = handlers.any (fun h => h.2 p) := by
    induction handlers with
    | nil => exact ⟨rfl, rfl⟩
    | cons hd rest ih =>
      obtain ⟨i, f⟩ := hd
      cases hf : f p
      · simp [dispatch_handlers, hf, List.findIdx_cons, ih.1, ih.2]
      · simp [dispatch_handlers, hf, List.findIdx_cons]
  refine ⟨hmain.1, hmain.2, ?_, ?_⟩
  · intro hnone
    simp [recv_dispatch, proxy_handle_packet, hmain.2, hnone]
  · intro hsome
    simp [recv_dispatch, proxy_handle_packet, hmain.2, hsome]

/-- Witness: two handlers of which the second consumes — both are invoked
in order, dispatch stops consumed, and a third never runs; applied through
the theorem at that concrete handler list. -/
theorem handler_dispatch_order_witness :
    (dispatch_handlers
      [(0, fun _ => false), (1, fun _ => true), (2, fun _ => false)] (37 : Nat)).1 =
      [0, 1] ∧
    recv_dispatch [] [(5 : Nat)] 37 = ([], [5, 37], true) := by
  constructor
  · rw [(handler_dispatch_order
      [(0, fun _ => false), (1, fun _ => true), (2, fun _ => false)] [] 37).1]
    rfl
  · exact (handler_dispatch_order [] [5] 37).2.2.1 rfl

/-! ### Endpoint close (`mc4p/network.py`, `Endpoint.close`)

`close(reason)` does nothing unless `connected`; otherwise it records
`reason or "Connection closed by us"` only when no reason was recorded yet,
clears `connected`, closes the socket and runs `_handle_disconnect()`
(the disconnect handlers then `handle_disconnect`) — counted here. -/

structure Endpoint where
  connected : Bool
  disconnect_reason : Option String
  sock_closed : Bool
  disconnect_handler_runs : Nat

/-- Python's `reason or "Connection closed by us"`: `None` and the empty
string are falsy. -/
def reason_or_default : Option String → String
  | none => "Connection closed by us"
  | some s => if s = "" then "Connection closed by us" else s

def endpoint_close (e : Endpoint) (reason : Option String) : Endpoint :=
  if e.connected then
    { connected := false
      disconnect_reason :=
        if e.disconnect_reason = none then some (reason_or_default reason)
        else e.disconnect_reason
      sock_closed := true
      disconnect_handler_runs := e.disconnect_handler_runs + 1 }
  else e

lemma close_of_disconnected {e : Endpoint} (h : e.connected = false)
    (r : Option String) : endpoint_close e r = e := by
  unfold endpoint_close
  rw [if_neg (by rw [h]; simp)]

/-- C9: on a connected endpoint, `close` clears `connected`, closes the
socket, runs the disconnect handlers exactly once, and records the reason
with first-writer-wins (an already-recorded reason is kept, otherwise the
supplied reason or the default); and `close` is idempotent — any second
`close` returns the state unchanged. -/
theorem close_idempotent (e : Endpoint) (r : Option String) :
    (e.connected = true →
      (endpoint_close e r).connected = false ∧
      (endpoint_close e r).sock_closed = true ∧
      (endpoint_close e r).disconnect_reason =
        some (e.disconnect_reason.getD (reason_or_default r)) ∧
      (endpoint_close e r).disconnect_handler_runs =
        e.disconnect_handler_runs + 1) ∧
    (∀ r2, endpoint_close (endpoint_close e r) r2 = endpoint_close e r) := by
  constructor
  · intro hc
    unfold endpoint_close
    rw [if_pos hc]
    refine ⟨rfl, rfl, ?_, rfl⟩
    cases hdr : e.disconnect_reason
    · simp
    · simp
  · intro r2
    by_cases hc : e.connected = true
    · have h1 : (endpoint_close e r).connected = false := by
        unfold endpoint_close
        rw [if_pos hc]
      exact close_of_disconnected h1 r2
    · have hc2 : e.connected = false := by simpa using hc
      rw [close_of_disconnected hc2 r]
      exact close_of_disconnected hc2 r2

/-- Witness: closing a fresh connected endpoint records the supplied
reason, runs the handlers once, and a second close is a no-op — all via
the theorem at that endpoint. -/
theorem close_idempotent_witness :
    (endpoint_close ⟨true, none, false, 0⟩ (some "bye")).connected = false ∧
    (endpoint_close ⟨true, none, false, 0⟩ (some "bye")).disconnect_reason =
      some "bye" ∧
    endpoint_close (endpoint_close ⟨true, none, false, 0⟩ (some "bye")) none =
      endpoint_close ⟨true, none, false, 0⟩ (some "bye") := by
  refine ⟨((close_idempotent ⟨true, none, false, 0⟩ (some "bye")).1 rfl).1, ?_,
    (close_idempotent ⟨true, none, false, 0⟩ (some "bye")).2 none⟩
  rw [((close_idempotent ⟨true, none, false, 0⟩ (some "bye")).1 rfl).2.2.1]
  rfl

end Mc4p